import Mathlib

/-!
Shallow embedding of the electrs storage layer (`src/store.rs`) and the
txid-collision diagnostic tool (`examples/txid_collisions.rs`).

The storage engine state is modelled as a list of rows strictly sorted by
bytewise-lexicographic key order, which is the iteration order the
underlying engine (RocksDB) delivers.  Keys and values are byte strings
modelled as `List Nat`.
-/

namespace Electrs

/-- Byte strings: RocksDB keys and values are opaque byte sequences. -/
abbrev Bytes := List Nat

/-- Strict bytewise-lexicographic order on byte strings, the order of the
storage engine's default comparator: a proper leading run sorts before its
extensions, otherwise the first differing byte decides. -/
def ltBytes : Bytes → Bytes → Bool
  | _, [] => false
  | [], _ :: _ => true
  | a :: as, b :: bs => decide (a < b) || (decide (a = b) && ltBytes as bs)

theorem ltBytes_nil_right (a : Bytes) : ltBytes a [] = false := by
  cases a <;> rfl

theorem ltBytes_irrefl (a : Bytes) : ltBytes a a = false := by
  induction a with
  | nil => rfl
  | cons x as ih => simp [ltBytes, ih]

theorem ltBytes_trans : ∀ {a b c : Bytes},
    ltBytes a b = true → ltBytes b c = true → ltBytes a c = true := by
  intro a
  induction a with
  | nil =>
    intro b c hab hbc
    cases b with
    | nil => exact absurd hab (by decide)
    | cons y bs =>
      cases c with
      | nil => rw [ltBytes_nil_right] at hbc; exact absurd hbc (by decide)
      | cons z cs => rfl
  | cons x as ih =>
    intro b c hab hbc
    cases b with
    | nil => rw [ltBytes_nil_right] at hab; exact absurd hab (by decide)
    | cons y bs =>
      cases c with
      | nil => rw [ltBytes_nil_right] at hbc; exact absurd hbc (by decide)
      | cons z cs =>
        simp only [ltBytes, Bool.or_eq_true, Bool.and_eq_true, decide_eq_true_eq] at *
        rcases hab with h1 | ⟨rfl, h1⟩
        · rcases hbc with h2 | ⟨rfl, h2⟩
          · exact Or.inl (Nat.lt_trans h1 h2)
          · exact Or.inl h1
        · rcases hbc with h2 | ⟨rfl, h2⟩
          · exact Or.inl h2
          · exact Or.inr ⟨rfl, ih h1 h2⟩

theorem ltBytes_total : ∀ {a b : Bytes},
    ltBytes a b = false → ltBytes b a = false → a = b := by
  intro a
  induction a with
  | nil =>
    intro b h1 _
    cases b with
    | nil => rfl
    | cons y bs => exact absurd h1 (by simp [ltBytes])
  | cons x as ih =>
    intro b h1 h2
    cases b with
    | nil => exact absurd h2 (by simp [ltBytes])
    | cons y bs =>
      rcases Nat.lt_trichotomy x y with h | h | h
      · simp [ltBytes, h] at h1
      · subst h
        simp only [ltBytes, Bool.or_eq_false_iff, Bool.and_eq_false_iff,
          decide_eq_false_iff_not, Nat.lt_irrefl, not_false_iff] at h1 h2
        have e1 : ltBytes as bs = false := by
          rcases h1.2 with h | h
          · exact absurd trivial h
          · exact h
        have e2 : ltBytes bs as = false := by
          rcases h2.2 with h | h
          · exact absurd trivial h
          · exact h
        rw [ih e1 e2]
      · simp [ltBytes, h] at h2

theorem ltBytes_asymm {a b : Bytes} (h : ltBytes a b = true) : ltBytes b a = false := by
  cases hba : ltBytes b a with
  | false => rfl
  | true =>
    have := ltBytes_trans h hba
    rw [ltBytes_irrefl] at this
    exact absurd this (by decide)

/-- Non-strict bytewise-lexicographic order. -/
def leBytes (a b : Bytes) : Prop := ltBytes a b = true ∨ a = b

theorem leBytes_of_not_lt {a b : Bytes} (h : ltBytes b a = false) : leBytes a b := by
  cases hab : ltBytes a b with
  | true => exact Or.inl hab
  | false => exact Or.inr (ltBytes_total hab h)

/-- Length of the longest common leading-byte run of two byte strings:
the value of `prev.iter().zip(key.iter()).take_while(|(a, b)| a == b).count()`
in `DBStore::max_collision`. -/
def lcpLen : Bytes → Bytes → Nat
  | a :: as, b :: bs => if a = b then lcpLen as bs + 1 else 0
  | _, _ => 0

theorem lcpLen_nil_left (b : Bytes) : lcpLen [] b = 0 := by cases b <;> rfl

theorem lcpLen_cons_same (x : Nat) (as bs : Bytes) :
    lcpLen (x :: as) (x :: bs) = lcpLen as bs + 1 := by
  simp [lcpLen]

theorem lcpLen_nil_right (a : Bytes) : lcpLen a [] = 0 := by cases a <;> rfl

theorem lcpLen_le_left : ∀ a b : Bytes, lcpLen a b ≤ a.length := by
  intro a
  induction a with
  | nil => intro b; rw [lcpLen_nil_left]; exact Nat.zero_le _
  | cons x as ih =>
    intro b
    cases b with
    | nil => rw [lcpLen_nil_right]; exact Nat.zero_le _
    | cons y bs =>
      by_cases h : x = y
      · simpa [lcpLen, h] using ih bs
      · simp [lcpLen, h]

theorem lcpLen_comm : ∀ a b : Bytes, lcpLen a b = lcpLen b a := by
  intro a
  induction a with
  | nil => intro b; rw [lcpLen_nil_left, lcpLen_nil_right]
  | cons x as ih =>
    intro b
    cases b with
    | nil => rw [lcpLen_nil_left, lcpLen_nil_right]
    | cons y bs =>
      by_cases h : x = y
      · subst h; rw [lcpLen_cons_same, lcpLen_cons_same, ih]
      · have h' : ¬y = x := fun hyx => h hyx.symm
        simp [lcpLen, h, h']

theorem lcpLen_append : ∀ (t a b : Bytes),
    lcpLen (t ++ a) (t ++ b) = t.length + lcpLen a b := by
  intro t
  induction t with
  | nil => intro a b; simp
  | cons x t ih =>
    intro a b
    rw [List.cons_append, List.cons_append, lcpLen_cons_same, ih, List.length_cons]
    omega

/-- Boolean test that `pre` is a leading byte run of `k`: Rust's
`key.starts_with(prefix)` for byte slices. -/
def startsWith : Bytes → Bytes → Bool
  | [], _ => true
  | _ :: _, [] => false
  | a :: ps, b :: ks => decide (a = b) && startsWith ps ks

theorem startsWith_iff_lcp : ∀ p k : Bytes,
    startsWith p k = true ↔ lcpLen p k = p.length := by
  intro p
  induction p with
  | nil => intro k; simp [startsWith, lcpLen_nil_left]
  | cons a ps ih =>
    intro k
    cases k with
    | nil => simp [startsWith, lcpLen_nil_right]
    | cons b ks =>
      by_cases h : a = b
      · simp [startsWith, lcpLen, h, ih]
      · simp [startsWith, lcpLen, h]

theorem startsWith_append_self : ∀ t s : Bytes, startsWith t (t ++ s) = true := by
  intro t
  induction t with
  | nil => intro s; rfl
  | cons x t ih => intro s; simp [startsWith, ih]

theorem startsWith_drop : ∀ p k : Bytes,
    startsWith p k = true → p ++ k.drop p.length = k := by
  intro p
  induction p with
  | nil => intro k _; simp
  | cons a ps ih =>
    intro k h
    cases k with
    | nil => exact absurd h (by simp [startsWith])
    | cons b ks =>
      simp only [startsWith, Bool.and_eq_true, decide_eq_true_eq] at h
      obtain ⟨rfl, h2⟩ := h
      simp [ih ks h2]

theorem not_lt_of_startsWith : ∀ p k : Bytes,
    startsWith p k = true → ltBytes k p = false := by
  intro p
  induction p with
  | nil => intro k _; exact ltBytes_nil_right k
  | cons a ps ih =>
    intro k h
    cases k with
    | nil => exact absurd h (by simp [startsWith])
    | cons b ks =>
      simp only [startsWith, Bool.and_eq_true, decide_eq_true_eq] at h
      obtain ⟨rfl, h2⟩ := h
      simp [ltBytes, ih ks h2]

theorem lcpLen_ge_of_startsWith {t a b : Bytes}
    (ha : startsWith t a = true) (hb : startsWith t b = true) :
    t.length ≤ lcpLen a b := by
  have ea := startsWith_drop t a ha
  have eb := startsWith_drop t b hb
  calc t.length ≤ t.length + lcpLen (a.drop t.length) (b.drop t.length) := Nat.le_add_right _ _
    _ = lcpLen (t ++ a.drop t.length) (t ++ b.drop t.length) := (lcpLen_append _ _ _).symm
    _ = lcpLen a b := by rw [ea, eb]

/-- In the bytewise-lexicographic order, the common run of the two outer
elements of a sorted triple is no longer than the common run of either
adjacent pair.  This is the adjacency argument behind the linear
collision scan. -/
theorem lcpLen_between : ∀ (a b c : Bytes), leBytes a b → leBytes b c →
    lcpLen a c ≤ lcpLen a b ∧ lcpLen a c ≤ lcpLen b c := by
  intro a
  induction a with
  | nil => intro b c _ _; simp [lcpLen_nil_left]
  | cons x as ih =>
    intro b c hab hbc
    cases c with
    | nil => simp [lcpLen_nil_right]
    | cons z cs =>
      by_cases hxz : x = z
      · subst hxz
        cases b with
        | nil =>
          exfalso
          rcases hab with h | h
          · rw [ltBytes_nil_right] at h; exact absurd h (by decide)
          · exact List.cons_ne_nil _ _ h
        | cons y bs =>
          have hxy : x = y ∧ leBytes as bs := by
            rcases hab with h | h
            · simp only [ltBytes, Bool.or_eq_true, Bool.and_eq_true,
                decide_eq_true_eq] at h
              rcases h with h | ⟨rfl, h⟩
              · exfalso
                rcases hbc with h2 | h2
                · simp only [ltBytes, Bool.or_eq_true, Bool.and_eq_true,
                    decide_eq_true_eq] at h2
                  rcases h2 with h2 | ⟨rfl, _⟩ <;> omega
                · injection h2 with h2a _; omega
              · exact ⟨rfl, Or.inl h⟩
            · injection h with h1 h2
              exact ⟨h1, Or.inr h2⟩
          obtain ⟨rfl, hasbs⟩ := hxy
          have hbscs : leBytes bs cs := by
            rcases hbc with h | h
            · simp only [ltBytes, Bool.or_eq_true, Bool.and_eq_true,
                decide_eq_true_eq] at h
              rcases h with h | ⟨_, h⟩
              · exact absurd h (Nat.lt_irrefl x)
              · exact Or.inl h
            · injection h with _ h2
              exact Or.inr h2
          obtain ⟨ih1, ih2⟩ := ih bs cs hasbs hbscs
          rw [lcpLen_cons_same, lcpLen_cons_same, lcpLen_cons_same]
          omega
      · simp [lcpLen, hxz]

/-- A persisted key/value byte pair (`struct Row` in `store.rs`). -/
structure Row where
  key : Bytes
  value : Bytes
deriving DecidableEq

/-- `Row::into_pair`. -/
def Row.into_pair (r : Row) : Bytes × Bytes := (r.key, r.value)

/-- The persisted state of the storage engine: rows in strictly increasing
bytewise-lexicographic key order, which is the order RocksDB iterates in. -/
abbrev DB := List Row

/-- The keys of a database state, in storage order. -/
def keysOf (db : DB) : List Bytes := db.map Row.key

/-- The sortedness invariant the engine maintains: keys strictly increase in
iteration order (hence all keys are distinct). -/
def Sorted (db : DB) : Prop :=
  List.Pairwise (fun r s => ltBytes r.key s.key = true) db

instance (db : DB) : Decidable (Sorted db) := by
  unfold Sorted; infer_instance

/-- Point lookup (`rocksdb::DB::get`): the value stored under `k`, or
`none` when the key is absent. -/
def dbGet (k : Bytes) : DB → Option Bytes
  | [] => none
  | r :: rest => if r.key = k then some r.value else dbGet k rest

/-- Single-key insert/overwrite: the engine-level effect of one `set`
operation (`rocksdb::DB::put` or one `WriteBatch::put` entry), keeping the
state sorted by key. -/
def dbPut (k v : Bytes) : DB → DB
  | [] => [⟨k, v⟩]
  | r :: rest =>
    if ltBytes k r.key then ⟨k, v⟩ :: r :: rest
    else if k = r.key then ⟨k, v⟩ :: rest
    else r :: dbPut k v rest

/-- `DBStore::scan`: position a forward cursor at `pre`
(`IteratorMode::From(prefix, Forward)` skips every key below `pre`),
then collect rows until the first key that does not start with `pre`. -/
def dbScan (pre : Bytes) (db : DB) : List Row :=
  (db.dropWhile (fun r => ltBytes r.key pre)).takeWhile
    (fun r => startsWith pre r.key)

/-- `DBStore::write`: one atomic batch holding a `put` for every row, in
order, so a later row for the same key overwrites an earlier one. -/
def dbWrite (rows : List Row) (db : DB) : DB :=
  rows.foldl (fun d r => dbPut r.key r.value d) db

theorem dbGet_dbPut (k v k' : Bytes) : ∀ db : DB,
    dbGet k' (dbPut k v db) = if k' = k then some v else dbGet k' db := by
  intro db
  induction db with
  | nil =>
    simp only [dbPut, dbGet]
    by_cases h : k' = k
    · rw [if_pos h.symm, if_pos h]
    · rw [if_neg (fun e : k = k' => h e.symm), if_neg h]
  | cons r rest ih =>
    simp only [dbPut]
    by_cases h1 : ltBytes k r.key = true
    · rw [if_pos h1]
      simp only [dbGet]
      by_cases h : k' = k
      · rw [if_pos h.symm, if_pos h]
      · rw [if_neg (fun e : k = k' => h e.symm), if_neg h]
    · rw [if_neg h1]
      by_cases h2 : k = r.key
      · rw [if_pos h2]
        by_cases h : k' = k
        · simp only [dbGet]
          rw [if_pos h.symm, if_pos h]
        · have hr : ¬r.key = k' := by
            rw [← h2]; exact fun e => h e.symm
          simp only [dbGet]
          rw [if_neg (fun e : k = k' => h e.symm), if_neg h, if_neg hr]
      · rw [if_neg h2]
        by_cases h4 : r.key = k'
        · have hk : ¬k' = k := fun e => h2 (h4.trans e).symm
          simp only [dbGet]
          rw [if_pos h4, if_neg hk, if_pos h4]
        · simp only [dbGet]
          rw [if_neg h4, ih]
          by_cases h : k' = k
          · rw [if_pos h, if_pos h]
          · rw [if_neg h, if_neg h, if_neg h4]

theorem mem_keysOf_dbPut (k v k' : Bytes) : ∀ db : DB,
    (k' ∈ keysOf (dbPut k v db)) ↔ (k' = k ∨ k' ∈ keysOf db) := by
  intro db
  induction db with
  | nil => simp [dbPut, keysOf]
  | cons r rest ih =>
    simp only [dbPut]
    by_cases h1 : ltBytes k r.key = true
    · rw [if_pos h1]
      simp only [keysOf, List.map_cons, List.mem_cons]
    · rw [if_neg h1]
      by_cases h2 : k = r.key
      · rw [if_pos h2]
        simp only [keysOf, List.map_cons, List.mem_cons]
        rw [← h2]
        tauto
      · rw [if_neg h2]
        simp only [keysOf, List.map_cons, List.mem_cons]
        simp only [keysOf] at ih
        rw [ih]
        tauto

theorem sorted_dbPut (k v : Bytes) : ∀ db : DB, Sorted db → Sorted (dbPut k v db) := by
  intro db
  induction db with
  | nil => intro _; simp [dbPut, Sorted]
  | cons r rest ih =>
    intro hs
    rw [Sorted, List.pairwise_cons] at hs
    obtain ⟨hr, htail⟩ := hs
    by_cases h1 : ltBytes k r.key = true
    · rw [dbPut, if_pos h1]
      rw [Sorted, List.pairwise_cons]
      constructor
      · intro s hsmem
        rcases List.mem_cons.mp hsmem with h | h
        · subst h; exact h1
        · exact ltBytes_trans h1 (hr s h)
      · rw [List.pairwise_cons]
        exact ⟨hr, htail⟩
    · rw [Bool.not_eq_true] at h1
      by_cases h2 : k = r.key
      · subst h2
        rw [dbPut, if_neg (by rw [h1]; exact Bool.false_ne_true), if_pos rfl]
        rw [Sorted, List.pairwise_cons]
        exact ⟨fun s hsmem => hr s hsmem, htail⟩
      · rw [dbPut, if_neg (by rw [h1]; exact Bool.false_ne_true), if_neg h2]
        rw [Sorted, List.pairwise_cons]
        constructor
        · intro s hsmem
          have hks : s.key = k ∨ s.key ∈ keysOf rest := by
            have := (mem_keysOf_dbPut k v s.key rest).mp
            apply this
            exact List.mem_map_of_mem Row.key hsmem
          rcases hks with h | h
          · rw [h]
            have hrk : ltBytes r.key k = true := by
              cases h3 : ltBytes r.key k with
              | true => rfl
              | false => exact absurd (ltBytes_total h1 h3) h2
            exact hrk
          · obtain ⟨t, htmem, htkey⟩ := List.mem_map.mp h
            rw [← htkey]
            exact hr t htmem
        · exact ih htail

theorem sorted_dbWrite (rows : List Row) : ∀ db : DB,
    Sorted db → Sorted (dbWrite rows db) := by
  induction rows with
  | nil => intro db hs; exact hs
  | cons r rows ih =>
    intro db hs
    exact ih (dbPut r.key r.value db) (sorted_dbPut r.key r.value db hs)

theorem mem_keysOf_dbWrite (k : Bytes) (rows : List Row) : ∀ db : DB,
    (k ∈ keysOf (dbWrite rows db)) ↔
      ((∃ r ∈ rows, r.key = k) ∨ k ∈ keysOf db) := by
  induction rows with
  | nil => intro db; simp [dbWrite]
  | cons r rows ih =>
    intro db
    show (k ∈ keysOf (dbWrite rows (dbPut r.key r.value db))) ↔ _
    rw [ih (dbPut r.key r.value db), mem_keysOf_dbPut]
    constructor
    · rintro (h | h | h)
      · obtain ⟨s, hs1, hs2⟩ := h
        exact Or.inl ⟨s, List.mem_cons_of_mem r hs1, hs2⟩
      · exact Or.inl ⟨r, List.mem_cons_self r rows, h.symm⟩
      · exact Or.inr h
    · rintro (⟨s, hs1, hs2⟩ | h)
      · rcases List.mem_cons.mp hs1 with h | h
        · subst h; exact Or.inr (Or.inl hs2.symm)
        · exact Or.inl ⟨s, h, hs2⟩
      · exact Or.inr (Or.inr h)

/-- Once the cursor fails the leading-run test past the seek point, every
later key fails it too: keys sharing the scanned run form one contiguous
range of the sorted order. -/
theorem sw_propagates {pre a b : Bytes} (hge : ltBytes a pre = false)
    (ha : ¬startsWith pre a = true) (hab : ltBytes a b = true) :
    ¬startsWith pre b = true := by
  intro hb
  apply ha
  have h1 : leBytes pre a := leBytes_of_not_lt hge
  have h2 : leBytes a b := Or.inl hab
  have h3 := (lcpLen_between pre a b h1 h2).1
  rw [(startsWith_iff_lcp pre b).mp hb] at h3
  have h4 := lcpLen_le_left pre a
  exact (startsWith_iff_lcp pre a).mpr (Nat.le_antisymm h4 h3)

theorem takeWhile_eq_filter_of_ge (pre : Bytes) : ∀ l : List Row,
    Sorted l → (∀ s ∈ l, ltBytes s.key pre = false) →
    l.takeWhile (fun r => startsWith pre r.key) =
      l.filter (fun r => startsWith pre r.key) := by
  intro l
  induction l with
  | nil => intro _ _; rfl
  | cons s t ih =>
    intro hs hge
    rw [Sorted, List.pairwise_cons] at hs
    obtain ⟨hrel, htail⟩ := hs
    by_cases hsw : startsWith pre s.key = true
    · rw [List.takeWhile_cons_of_pos (p := fun r : Row => startsWith pre r.key) hsw,
        List.filter_cons_of_pos (p := fun r : Row => startsWith pre r.key) hsw,
        ih htail (fun u hu => hge u (List.mem_cons_of_mem s hu))]
    · rw [List.takeWhile_cons_of_neg (p := fun r : Row => startsWith pre r.key) hsw,
        List.filter_cons_of_neg (p := fun r : Row => startsWith pre r.key) hsw]
      symm
      rw [List.filter_eq_nil_iff]
      intro u hu
      exact sw_propagates (hge s (List.mem_cons_self s t)) hsw (hrel u hu)

/-- On a sorted state, the cursor-and-break loop of `DBStore::scan` returns
exactly the rows whose key starts with the scanned byte run. -/
theorem dbScan_eq_filter (pre : Bytes) : ∀ db : DB, Sorted db →
    dbScan pre db = db.filter (fun r => startsWith pre r.key) := by
  intro db
  induction db with
  | nil => intro _; rfl
  | cons r rest ih =>
    intro hs
    by_cases hlt : ltBytes r.key pre = true
    · have hsw : ¬startsWith pre r.key = true := by
        intro h
        rw [not_lt_of_startsWith pre r.key h] at hlt
        exact absurd hlt (by decide)
      have htail : Sorted rest := by
        rw [Sorted, List.pairwise_cons] at hs
        exact hs.2
      show (List.dropWhile _ (r :: rest)).takeWhile _ = _
      rw [List.dropWhile_cons_of_pos (p := fun r : Row => ltBytes r.key pre) hlt,
        List.filter_cons_of_neg (p := fun r : Row => startsWith pre r.key) hsw]
      exact ih htail
    · show (List.dropWhile _ (r :: rest)).takeWhile _ = _
      rw [List.dropWhile_cons_of_neg (p := fun r : Row => ltBytes r.key pre) hlt]
      apply takeWhile_eq_filter_of_ge pre (r :: rest) hs
      intro s hsm
      rcases List.mem_cons.mp hsm with h | h
      · subst h; exact Bool.not_eq_true _ ▸ hlt
      · rw [Sorted, List.pairwise_cons] at hs
        cases hsp : ltBytes s.key pre with
        | false => rfl
        | true => exact absurd (ltBytes_trans (hs.1 s h) hsp) hlt

/-- The scan result is itself sorted ascending: it is a sublist of the
sorted state. -/
theorem sorted_dbScan (pre : Bytes) (db : DB) (hs : Sorted db) :
    Sorted (dbScan pre db) :=
  List.Pairwise.sublist
    ((List.takeWhile_sublist _).trans (List.dropWhile_sublist _)) hs

/-- One diagnostic line emitted by `DBStore::max_collision`: the printed
collision length (`collision_len - prefix_len`) and the two colliding
post-tag key suffixes, in the reversed byte order that `revhex` renders
(hex encoding itself is display only and elided). -/
structure CollReport where
  len : Nat
  prevSuffix : Bytes
  keySuffix : Bytes
deriving DecidableEq

/-- The loop state of `DBStore::max_collision`: the previously visited key,
the running maximum full-key collision length, and the reports emitted so
far. -/
structure CollState where
  prev : Option Bytes
  collisionMax : Nat
  reports : List CollReport
deriving DecidableEq

/-- One iteration of the `max_collision` loop body on the next visited key. -/
def collStep (preLen : Nat) (st : CollState) (key : Bytes) : CollState :=
  match st.prev with
  | none => { st with prev := some key }
  | some p =>
    let collisionLen := lcpLen p key
    if st.collisionMax < collisionLen then
      { prev := some key
        collisionMax := collisionLen
        reports := st.reports ++
          [⟨collisionLen - preLen, (p.drop preLen).reverse, (key.drop preLen).reverse⟩] }
    else { st with prev := some key }

/-- The keys visited by the `max_collision` cursor: seek to `tag`, then
iterate while the key still starts with `tag` (same cursor mechanics as
`dbScan`). -/
def taggedKeys (db : DB) (tag : Bytes) : List Bytes :=
  ((db.dropWhile (fun r => ltBytes r.key tag)).takeWhile
    (fun r => startsWith tag r.key)).map Row.key

/-- `DBStore::max_collision`: the final loop state after one linear pass
over the keys sharing `tag`. -/
def maxCollision (db : DB) (tag : Bytes) : CollState :=
  (taggedKeys db tag).foldl (collStep tag.length) ⟨none, 0, []⟩

/-- The common-run lengths of consecutive keys in iteration order. -/
def adjLcps : List Bytes → List Nat
  | x :: y :: rest => lcpLen x y :: adjLcps (y :: rest)
  | _ => []

/-- Maximum of a list of lengths, zero when empty (the loop's initial
`collision_max`). -/
def listMax (l : List Nat) : Nat := l.foldl max 0

/-- All pairs of distinct positions of a list, earlier element first. -/
def allPairs : List α → List (α × α)
  | [] => []
  | x :: xs => xs.map (fun y => (x, y)) ++ allPairs xs

theorem foldl_max_eq (l : List Nat) : ∀ a : Nat, l.foldl max a = max a (listMax l) := by
  induction l with
  | nil => intro a; simp [listMax]
  | cons x l ih =>
    intro a
    have h1 : (x :: l).foldl max a = l.foldl max (max a x) := rfl
    have h2 : listMax (x :: l) = l.foldl max (max 0 x) := rfl
    rw [h1, h2, ih (max a x), ih (max 0 x)]
    omega

theorem listMax_cons (x : Nat) (l : List Nat) : listMax (x :: l) = max x (listMax l) := by
  have : listMax (x :: l) = l.foldl max (max 0 x) := rfl
  rw [this, foldl_max_eq]
  omega

theorem le_listMax_of_mem {x : Nat} : ∀ {l : List Nat}, x ∈ l → x ≤ listMax l := by
  intro l
  induction l with
  | nil => intro h; exact absurd h (List.not_mem_nil x)
  | cons y l ih =>
    intro h
    rw [listMax_cons]
    rcases List.mem_cons.mp h with h | h
    · subst h; exact Nat.le_max_left _ _
    · exact Nat.le_trans (ih h) (Nat.le_max_right _ _)

theorem listMax_le {m : Nat} : ∀ {l : List Nat}, (∀ x ∈ l, x ≤ m) → listMax l ≤ m := by
  intro l
  induction l with
  | nil => intro _; exact Nat.zero_le m
  | cons y l ih =>
    intro h
    rw [listMax_cons]
    exact Nat.max_le.mpr ⟨h y (List.mem_cons_self y l),
      ih (fun x hx => h x (List.mem_cons_of_mem y hx))⟩

/-- The running maximum the loop maintains is the maximum over consecutive
pairs in visit order, whatever the report list so far. -/
theorem foldl_collStep_max (n : Nat) : ∀ (ks : List Bytes) (p : Bytes) (m : Nat)
    (rs : List CollReport),
    (ks.foldl (collStep n) ⟨some p, m, rs⟩).collisionMax =
      (adjLcps (p :: ks)).foldl max m := by
  intro ks
  induction ks with
  | nil => intro p m rs; rfl
  | cons k ks ih =>
    intro p m rs
    have hunfold : ∀ rs' : List CollReport,
        collStep n ⟨some p, m, rs'⟩ k =
          if m < lcpLen p k then
            ⟨some k, lcpLen p k, rs' ++
              [⟨lcpLen p k - n, (p.drop n).reverse, (k.drop n).reverse⟩]⟩
          else ⟨some k, m, rs'⟩ := fun _ => rfl
    have hstep : ∀ rs' : List CollReport,
        collStep n ⟨some p, m, rs'⟩ k =
          { prev := some k, collisionMax := max m (lcpLen p k),
            reports := if m < lcpLen p k then rs' ++
              [⟨lcpLen p k - n, (p.drop n).reverse, (k.drop n).reverse⟩] else rs' } := by
      intro rs'
      rw [hunfold]
      by_cases h : m < lcpLen p k
      · rw [if_pos h, if_pos h]
        have : max m (lcpLen p k) = lcpLen p k := Nat.max_eq_right (Nat.le_of_lt h)
        rw [this]
      · rw [if_neg h, if_neg h]
        have : max m (lcpLen p k) = m := Nat.max_eq_left (Nat.le_of_not_lt h)
        rw [this]
    have hadj : adjLcps (p :: k :: ks) = lcpLen p k :: adjLcps (k :: ks) := rfl
    rw [List.foldl_cons, hstep, hadj, List.foldl_cons, ih]

/-- Final collision maximum of the scan: the maximum common run over
consecutive tagged keys. -/
theorem maxCollision_eq_adj (db : DB) (tag : Bytes) :
    (maxCollision db tag).collisionMax = listMax (adjLcps (taggedKeys db tag)) := by
  rw [maxCollision]
  cases hks : taggedKeys db tag with
  | nil => rfl
  | cons k ks =>
    have h0 : collStep tag.length ⟨none, 0, []⟩ k = ⟨some k, 0, []⟩ := rfl
    rw [List.foldl_cons, h0, foldl_collStep_max]
    rfl

theorem mem_allPairs_mem : ∀ {l : List α} {a b : α}, (a, b) ∈ allPairs l →
    a ∈ l ∧ b ∈ l := by
  intro l
  induction l with
  | nil => intro a b h; exact absurd h (List.not_mem_nil _)
  | cons x xs ih =>
    intro a b h
    rw [allPairs, List.mem_append] at h
    rcases h with h | h
    · obtain ⟨y, hy, he⟩ := List.mem_map.mp h
      injection he with he1 he2
      subst he1; subst he2
      exact ⟨List.mem_cons_self _ _, List.mem_cons_of_mem _ hy⟩
    · obtain ⟨h1, h2⟩ := ih h
      exact ⟨List.mem_cons_of_mem _ h1, List.mem_cons_of_mem _ h2⟩

/-- In a sorted key sequence, the common run of ANY pair is bounded by the
best common run among consecutive pairs: the correctness argument for the
linear collision scan. -/
theorem pair_lcp_le_adjMax : ∀ (ks : List Bytes),
    ks.Pairwise (fun a b => ltBytes a b = true) →
    ∀ a b : Bytes, (a, b) ∈ allPairs ks → lcpLen a b ≤ listMax (adjLcps ks) := by
  intro ks
  induction ks with
  | nil => intro _ a b h; exact absurd h (List.not_mem_nil _)
  | cons k ks ih =>
    intro hs a b hmem
    rw [List.pairwise_cons] at hs
    obtain ⟨hrel, htail⟩ := hs
    rw [allPairs, List.mem_append] at hmem
    cases ks with
    | nil =>
      exfalso
      rcases hmem with h | h
      · simp at h
      · exact absurd h (List.not_mem_nil _)
    | cons k1 rest =>
      have hadj : adjLcps (k :: k1 :: rest) = lcpLen k k1 :: adjLcps (k1 :: rest) := rfl
      rcases hmem with h | h
      · obtain ⟨y, hy, he⟩ := List.mem_map.mp h
        have he1 : k = a := congrArg Prod.fst he
        have he2 : y = b := congrArg Prod.snd he
        subst he1; subst he2
        rcases List.mem_cons.mp hy with hcase | hcase
        · subst hcase
          rw [hadj, listMax_cons]
          exact Nat.le_max_left _ _
        · -- the second element is deeper in the tail: go through the
          -- adjacent pair and the betweenness bound
          have h1 : leBytes k k1 := Or.inl (hrel k1 (List.mem_cons_self k1 rest))
          have h2 : leBytes k1 y := by
            rw [List.pairwise_cons] at htail
            exact Or.inl (htail.1 y hcase)
          have hle := (lcpLen_between k k1 y h1 h2).2
          have hpair : (k1, y) ∈ allPairs (k1 :: rest) := by
            rw [allPairs, List.mem_append]
            exact Or.inl (List.mem_map.mpr ⟨y, hcase, rfl⟩)
          have hih := ih htail k1 y hpair
          rw [hadj, listMax_cons]
          exact Nat.le_trans (Nat.le_trans hle hih) (Nat.le_max_right _ _)
      · have hih := ih htail a b h
        rw [hadj, listMax_cons]
        exact Nat.le_trans hih (Nat.le_max_right _ _)

theorem adjLcps_subset_pairs : ∀ (ks : List Bytes) (x : Nat), x ∈ adjLcps ks →
    x ∈ (allPairs ks).map (fun ab => lcpLen ab.1 ab.2) := by
  intro ks
  induction ks with
  | nil => intro x h; exact absurd h (List.not_mem_nil _)
  | cons k ks ih =>
    intro x h
    cases ks with
    | nil => exact absurd h (List.not_mem_nil _)
    | cons k1 rest =>
      have hadj : adjLcps (k :: k1 :: rest) = lcpLen k k1 :: adjLcps (k1 :: rest) := rfl
      rw [hadj] at h
      rcases List.mem_cons.mp h with h | h
      · subst h
        apply List.mem_map.mpr
        refine ⟨(k, k1), ?_, rfl⟩
        rw [allPairs, List.mem_append]
        exact Or.inl (List.mem_map.mpr ⟨k1, List.mem_cons_self k1 rest, rfl⟩)
      · obtain ⟨ab, hab, he⟩ := List.mem_map.mp (ih x h)
        apply List.mem_map.mpr
        refine ⟨ab, ?_, he⟩
        rw [allPairs, List.mem_append]
        exact Or.inr hab

/-- In sorted order the best adjacent common run IS the best common run over
all pairs. -/
theorem adjMax_eq_pairsMax (ks : List Bytes)
    (hs : ks.Pairwise (fun a b => ltBytes a b = true)) :
    listMax (adjLcps ks) =
      listMax ((allPairs ks).map (fun ab => lcpLen ab.1 ab.2)) := by
  apply Nat.le_antisymm
  · apply listMax_le
    intro x hx
    exact le_listMax_of_mem (adjLcps_subset_pairs ks x hx)
  · apply listMax_le
    intro x hx
    obtain ⟨ab, hab, he⟩ := List.mem_map.mp hx
    subst he
    exact pair_lcp_le_adjMax ks hs ab.1 ab.2 (by cases ab; exact hab)

theorem taggedKeys_eq_scan (db : DB) (tag : Bytes) :
    taggedKeys db tag = (dbScan tag db).map Row.key := rfl

theorem mem_taggedKeys_sw {db : DB} {tag k : Bytes} (h : k ∈ taggedKeys db tag) :
    startsWith tag k = true := by
  rw [taggedKeys] at h
  obtain ⟨r, hr, he⟩ := List.mem_map.mp h
  subst he
  exact List.mem_takeWhile_imp (p := fun r : Row => startsWith tag r.key) hr

theorem taggedKeys_pairwise {db : DB} (tag : Bytes) (hs : Sorted db) :
    (taggedKeys db tag).Pairwise (fun a b => ltBytes a b = true) := by
  rw [taggedKeys, List.pairwise_map]
  exact List.Pairwise.sublist
    ((List.takeWhile_sublist _).trans (List.dropWhile_sublist _)) hs

theorem listMax_map_add (t : Nat) (f : α → Nat) : ∀ l : List α, l ≠ [] →
    listMax (l.map (fun x => t + f x)) = t + listMax (l.map f) := by
  intro l
  induction l with
  | nil => intro h; exact absurd rfl h
  | cons x xs ih =>
    intro _
    cases xs with
    | nil =>
      simp only [List.map_cons, List.map_nil, listMax_cons]
      have h0 : listMax ([] : List Nat) = 0 := rfl
      rw [h0]
      omega
    | cons y ys =>
      have hL : listMax (List.map (fun x => t + f x) (x :: y :: ys)) =
          max (t + f x) (listMax (List.map (fun x => t + f x) (y :: ys))) := by
        rw [List.map_cons, listMax_cons]
      have hR : listMax (List.map f (x :: y :: ys)) =
          max (f x) (listMax (List.map f (y :: ys))) := by
        rw [List.map_cons, listMax_cons]
      rw [hL, hR, ih (List.cons_ne_nil y ys)]
      omega

theorem allPairs_ne_nil {ks : List Bytes} (hlen : 2 ≤ ks.length) :
    allPairs ks ≠ [] := by
  cases ks with
  | nil => simp at hlen
  | cons a t =>
    cases t with
    | nil => simp at hlen
    | cons b t2 => simp [allPairs]

/-- The final running maximum reported by the scan, with the tag length
subtracted, is the maximum post-tag common run over ALL pairs of distinct
tagged keys, not only adjacent ones. -/
theorem maxCollision_global (db : DB) (tag : Bytes) (hs : Sorted db)
    (hlen : 2 ≤ (taggedKeys db tag).length) :
    (maxCollision db tag).collisionMax - tag.length =
      listMax ((allPairs (taggedKeys db tag)).map
        (fun ab => lcpLen (ab.1.drop tag.length) (ab.2.drop tag.length))) := by
  rw [maxCollision_eq_adj,
    adjMax_eq_pairsMax (taggedKeys db tag) (taggedKeys_pairwise tag hs)]
  have hcong : (allPairs (taggedKeys db tag)).map (fun ab => lcpLen ab.1 ab.2) =
      (allPairs (taggedKeys db tag)).map
        (fun ab => tag.length +
          lcpLen (ab.1.drop tag.length) (ab.2.drop tag.length)) := by
    apply List.map_congr_left
    intro ab hab
    obtain ⟨h1, h2⟩ := mem_allPairs_mem hab
    have e1 := startsWith_drop tag ab.1 (mem_taggedKeys_sw h1)
    have e2 := startsWith_drop tag ab.2 (mem_taggedKeys_sw h2)
    calc lcpLen ab.1 ab.2
        = lcpLen (tag ++ ab.1.drop tag.length) (tag ++ ab.2.drop tag.length) := by
          rw [e1, e2]
      _ = tag.length + lcpLen (ab.1.drop tag.length) (ab.2.drop tag.length) :=
          lcpLen_append _ _ _
  rw [hcong, listMax_map_add _ _ _ (allPairs_ne_nil hlen)]
  omega

/-- Two strictly sorted key sequences with the same members are equal:
sorted storage order does not depend on insertion order. -/
theorem sorted_ext : ∀ l1 l2 : List Bytes,
    l1.Pairwise (fun a b => ltBytes a b = true) →
    l2.Pairwise (fun a b => ltBytes a b = true) →
    (∀ x, x ∈ l1 ↔ x ∈ l2) → l1 = l2 := by
  intro l1
  induction l1 with
  | nil =>
    intro l2 _ _ hmem
    cases l2 with
    | nil => rfl
    | cons b t2 =>
      exact absurd ((hmem b).mpr (List.mem_cons_self b t2)) (List.not_mem_nil b)
  | cons a t1 ih =>
    intro l2 h1 h2 hmem
    cases l2 with
    | nil => exact absurd ((hmem a).mp (List.mem_cons_self a t1)) (List.not_mem_nil a)
    | cons b t2 =>
      rw [List.pairwise_cons] at h1 h2
      have hab : a = b := by
        have ha : a ∈ b :: t2 := (hmem a).mp (List.mem_cons_self a t1)
        have hb : b ∈ a :: t1 := (hmem b).mpr (List.mem_cons_self b t2)
        rcases List.mem_cons.mp ha with h | h
        · exact h
        · rcases List.mem_cons.mp hb with h' | h'
          · exact h'.symm
          · have hba := ltBytes_trans (h2.1 a h) (h1.1 b h')
            rw [ltBytes_irrefl] at hba
            exact absurd hba (by decide)
      subst hab
      have htmem : ∀ x, x ∈ t1 ↔ x ∈ t2 := by
        intro x
        constructor
        · intro hx
          have hx2 : x ∈ a :: t2 := (hmem x).mp (List.mem_cons_of_mem a hx)
          rcases List.mem_cons.mp hx2 with h | h
          · subst h
            have := h1.1 x hx
            rw [ltBytes_irrefl] at this
            exact absurd this (by decide)
          · exact h
        · intro hx
          have hx1 : x ∈ a :: t1 := (hmem x).mpr (List.mem_cons_of_mem a hx)
          rcases List.mem_cons.mp hx1 with h | h
          · subst h
            have := h2.1 x hx
            rw [ltBytes_irrefl] at this
            exact absurd this (by decide)
          · exact h
      rw [ih t2 h1.2 h2.2 htmem]

/-- Invariant carried through the `max_collision` loop: the previous key is
tagged, the printed lengths grow strictly, and every printed length plus the
tag length is bounded by the running maximum. -/
def reportInv (tag : Bytes) (st : CollState) : Prop :=
  (∀ p, st.prev = some p → startsWith tag p = true) ∧
  List.Pairwise (fun a b => a < b) (st.reports.map CollReport.len) ∧
  (∀ r ∈ st.reports, r.len + tag.length ≤ st.collisionMax)

theorem collStep_inv {tag : Bytes} {st : CollState} {k : Bytes}
    (hk : startsWith tag k = true) (hinv : reportInv tag st) :
    reportInv tag (collStep tag.length st k) := by
  obtain ⟨hprev, hpw, hbound⟩ := hinv
  cases hp : st.prev with
  | none =>
    have hunfold : collStep tag.length st k = { st with prev := some k } := by
      rw [collStep, hp]
    rw [hunfold]
    refine ⟨fun p h => ?_, hpw, hbound⟩
    injection h with h
    subst h
    exact hk
  | some p =>
    have hptag := hprev p hp
    have hc : tag.length ≤ lcpLen p k := lcpLen_ge_of_startsWith hptag hk
    have hunfold : collStep tag.length st k =
        if st.collisionMax < lcpLen p k then
          ⟨some k, lcpLen p k, st.reports ++
            [⟨lcpLen p k - tag.length, (p.drop tag.length).reverse,
              (k.drop tag.length).reverse⟩]⟩
        else { st with prev := some k } := by
      rw [collStep, hp]
    rw [hunfold]
    by_cases h : st.collisionMax < lcpLen p k
    · rw [if_pos h]
      refine ⟨fun q hq => ?_, ?_, ?_⟩
      · injection hq with hq
        subst hq
        exact hk
      · rw [List.map_append]
        rw [List.pairwise_append]
        refine ⟨hpw, List.pairwise_singleton _ _, ?_⟩
        intro x hx y hy
        obtain ⟨r, hr, he⟩ := List.mem_map.mp hx
        subst he
        have hb := hbound r hr
        have hymem : y = lcpLen p k - tag.length := by
          simp only [List.map_cons, List.map_nil, List.mem_singleton] at hy
          exact hy
        subst hymem
        omega
      · intro r hr
        rcases List.mem_append.mp hr with h' | h'
        · have := hbound r h'
          show r.len + tag.length ≤ lcpLen p k
          omega
        · rw [List.mem_singleton] at h'
          subst h'
          show lcpLen p k - tag.length + tag.length ≤ lcpLen p k
          omega
    · rw [if_neg h]
      refine ⟨fun q hq => ?_, hpw, hbound⟩
      injection hq with hq
      subst hq
      exact hk

theorem foldl_collStep_inv {tag : Bytes} : ∀ (ks : List Bytes) (st : CollState),
    (∀ k ∈ ks, startsWith tag k = true) → reportInv tag st →
    reportInv tag (ks.foldl (collStep tag.length) st) := by
  intro ks
  induction ks with
  | nil => intro st _ h; exact h
  | cons k ks ih =>
    intro st hks hinv
    exact ih _ (fun x hx => hks x (List.mem_cons_of_mem k hx))
      (collStep_inv (hks k (List.mem_cons_self k ks)) hinv)

/-- The printed collision lengths of one pass are strictly increasing: a
report is only emitted when the running maximum strictly grows. -/
theorem maxCollision_reports_increasing (db : DB) (tag : Bytes) :
    List.Pairwise (fun a b => a < b)
      ((maxCollision db tag).reports.map CollReport.len) := by
  have hinv : reportInv tag (maxCollision db tag) := by
    apply foldl_collStep_inv
    · intro k hk; exact mem_taggedKeys_sw hk
    · exact ⟨fun p h => Option.noConfusion h, List.Pairwise.nil,
        fun r h => absurd h (List.not_mem_nil r)⟩
  exact hinv.2.1

theorem collStep_reports_extend (n : Nat) (st : CollState) (k : Bytes) :
    ∃ ext, (collStep n st k).reports = st.reports ++ ext := by
  cases hp : st.prev with
  | none =>
    refine ⟨[], ?_⟩
    have hunfold : collStep n st k = { st with prev := some k } := by
      rw [collStep, hp]
    rw [hunfold, List.append_nil]
  | some p =>
    have hunfold : collStep n st k =
        if st.collisionMax < lcpLen p k then
          ⟨some k, lcpLen p k, st.reports ++
            [⟨lcpLen p k - n, (p.drop n).reverse, (k.drop n).reverse⟩]⟩
        else { st with prev := some k } := by
      rw [collStep, hp]
    by_cases h : st.collisionMax < lcpLen p k
    · refine ⟨[⟨lcpLen p k - n, (p.drop n).reverse, (k.drop n).reverse⟩], ?_⟩
      rw [hunfold, if_pos h]
    · refine ⟨[], ?_⟩
      rw [hunfold, if_neg h, List.append_nil]

theorem foldl_reports_ne_nil (n : Nat) : ∀ (ks : List Bytes) (st : CollState),
    st.reports ≠ [] → (ks.foldl (collStep n) st).reports ≠ [] := by
  intro ks
  induction ks with
  | nil => intro st h; exact h
  | cons k ks ih =>
    intro st h
    rw [List.foldl_cons]
    apply ih
    obtain ⟨ext, he⟩ := collStep_reports_extend n st k
    rw [he]
    intro hcontra
    exact h (List.append_eq_nil.mp hcontra).1

/-- With a nonempty tag and at least two tagged keys, the scan always emits
at least one report: the first adjacent pair already beats the initial
running maximum of zero. -/
theorem maxCollision_reports_ne_nil (db : DB) (tag : Bytes) (htag : tag ≠ [])
    (hlen : 2 ≤ (taggedKeys db tag).length) :
    (maxCollision db tag).reports ≠ [] := by
  obtain ⟨k1, k2, rest, hks⟩ : ∃ k1 k2 rest, taggedKeys db tag = k1 :: k2 :: rest := by
    cases h : taggedKeys db tag with
    | nil => rw [h] at hlen; simp at hlen
    | cons a t =>
      cases t with
      | nil => rw [h] at hlen; simp at hlen
      | cons b t2 => exact ⟨a, b, t2, rfl⟩
  have hk1 : startsWith tag k1 = true :=
    mem_taggedKeys_sw (by rw [hks]; exact List.mem_cons_self _ _)
  have hk2 : startsWith tag k2 = true :=
    mem_taggedKeys_sw
      (by rw [hks]; exact List.mem_cons_of_mem _ (List.mem_cons_self _ _))
  have htaglen : 1 ≤ tag.length := by
    cases tag with
    | nil => exact absurd rfl htag
    | cons x t => simp
  have hc : 0 < lcpLen k1 k2 := by
    have := lcpLen_ge_of_startsWith hk1 hk2
    omega
  rw [maxCollision, hks]
  have h0 : collStep tag.length ⟨none, 0, []⟩ k1 = ⟨some k1, 0, []⟩ := rfl
  have h1 : collStep tag.length ⟨some k1, 0, []⟩ k2 =
      ⟨some k2, lcpLen k1 k2,
        [⟨lcpLen k1 k2 - tag.length, (k1.drop tag.length).reverse,
          (k2.drop tag.length).reverse⟩]⟩ := by
    have hunfold : collStep tag.length ⟨some k1, 0, []⟩ k2 =
        if 0 < lcpLen k1 k2 then
          ⟨some k2, lcpLen k1 k2,
            [⟨lcpLen k1 k2 - tag.length, (k1.drop tag.length).reverse,
              (k2.drop tag.length).reverse⟩]⟩
        else ⟨some k2, 0, []⟩ := rfl
    rw [hunfold, if_pos hc]
  rw [List.foldl_cons, h0, List.foldl_cons, h1]
  apply foldl_reports_ne_nil
  exact List.cons_ne_nil _ _

/-- Durability options passed to an engine write (`rocksdb::WriteOptions`):
the synchronous-flush flag and the disable-write-ahead-log flag. -/
structure WriteOpts where
  sync : Bool
  disableWal : Bool
deriving DecidableEq

/-- `rocksdb::WriteOptions::new()` / `::default()`: no synchronous flush
and the write-ahead log enabled.  These are also the options the engine
uses when `DBStore::put` calls `rocksdb::DB::put` without explicit
options. -/
def defaultWriteOpts : WriteOpts := ⟨false, false⟩

/-- `opts.set_sync(b)`. -/
def setSync (o : WriteOpts) (b : Bool) : WriteOpts := { o with sync := b }

/-- `opts.disable_wal(b)`. -/
def setDisableWal (o : WriteOpts) (b : Bool) : WriteOpts := { o with disableWal := b }

/-- The handle configuration (`struct Options` in `store.rs`): the dataset
path and the bulk-import flag. -/
structure Options where
  path : Bytes
  bulkImport : Bool
deriving DecidableEq

/-- The storage engine handle (`struct DBStore`): the open engine state and
the configuration it was opened with. -/
structure DBStore where
  db : DB
  opts : Options

/-- `DBStore::put`: a single write through `rocksdb::DB::put`, which uses
the engine's default write options. -/
def DBStore.putOp (s : DBStore) (k v : Bytes) : DBStore × WriteOpts :=
  ({ s with db := dbPut k v s.db }, defaultWriteOpts)

/-- `DBStore::write` (impl `WriteStore`): build one batch holding a `put`
for every row, then apply it with `set_sync(!bulk_import)` and
`disable_wal(bulk_import)`. -/
def DBStore.writeOp (s : DBStore) (rows : List Row) : DBStore × WriteOpts :=
  ({ s with db := dbWrite rows s.db },
    setDisableWal (setSync defaultWriteOpts (!s.opts.bulkImport)) s.opts.bulkImport)

/-- `DBStore::flush` (impl `WriteStore`): an empty batch written with
`set_sync(true)` and `disable_wal(false)`. -/
def DBStore.flushOp (s : DBStore) : DBStore × WriteOpts :=
  ({ s with db := dbWrite [] s.db },
    setDisableWal (setSync defaultWriteOpts true) false)

/-- Iterated `flush` calls with no intervening writes. -/
def flushIter (s : DBStore) : Nat → DBStore
  | 0 => s
  | n + 1 => ((flushIter s n).flushOp).1

/-- The durable content of the filesystem: the dataset persisted at each
path.  Used to model the close-then-reopen mode transition. -/
def Disk : Type := Bytes → DB

/-- `DBStore::open_opts`: open (or create) the dataset at the configured
path.  The engine tuning applied there (buffer sizes, compaction style,
`set_disable_auto_compactions(bulk_import)`) does not alter the persisted
rows. -/
def openOpts (o : Options) (disk : Disk) : DBStore :=
  { db := disk o.path, opts := o }

/-- `DBStore::open`: open at `path` in bulk-import mode. -/
def openDB (path : Bytes) (disk : Disk) : DBStore :=
  openOpts ⟨path, true⟩ disk

/-- Dropping (closing) a handle persists its state at its path. -/
def closeStore (s : DBStore) (disk : Disk) : Disk :=
  fun p => if p = s.opts.path then s.db else disk p

/-- `DBStore::enable_compaction`: clone the configuration with
`bulk_import = false`, drop (close) the consumed handle, and only then
reopen at the same path. -/
def enableCompaction (s : DBStore) (disk : Disk) : DBStore :=
  openOpts { path := s.opts.path, bulkImport := false } (closeStore s disk)

/-- An engine-reported failure (I/O error, open failure, corruption). -/
structure EngineError where
  code : Nat
deriving DecidableEq

/-- The observable result of one storage-layer call: a value, or a fatal
propagated engine failure (`.unwrap()` panics and the owning process
terminates). -/
inductive Outcome (α : Type) where
  | ok (a : α)
  | fatal (e : EngineError)
deriving DecidableEq

/-- Rust's `Result::unwrap`: succeed on `Ok`, kill the process on `Err`. -/
def unwrapRes : Except EngineError α → Outcome α
  | .ok a => .ok a
  | .error e => .fatal e

/-- `DBStore::get` at the engine boundary:
`self.db.get(key).unwrap().map(|v| v.to_vec())` applied to the engine's
response. -/
def getOutcome (resp : Except EngineError (Option Bytes)) : Outcome (Option Bytes) :=
  match unwrapRes resp with
  | .ok v => .ok (v.map (fun b => b))
  | .fatal e => .fatal e

/-- `DBStore::open_opts` at the engine boundary:
`rocksdb::DB::open(&db_opts, &opts.path).unwrap()`. -/
def openOutcome (resp : Except EngineError DB) : Outcome DB := unwrapRes resp

/-- `DBStore::put` at the engine boundary: `self.db.put(key, value).unwrap()`. -/
def putOutcome (resp : Except EngineError Unit) : Outcome Unit := unwrapRes resp

/-- `DBStore::write` at the engine boundary:
`self.db.write_opt(batch, &opts).unwrap()`. -/
def writeOutcome (resp : Except EngineError Unit) : Outcome Unit := unwrapRes resp

/-- `DBStore::flush` at the engine boundary:
`self.db.write_opt(empty, &opts).unwrap()`. -/
def flushOutcome (resp : Except EngineError Unit) : Outcome Unit := unwrapRes resp

/-- Result of running the txid-collisions diagnostic tool. -/
inductive ToolOutcome where
  | panicked
  | ok (st : CollState)
deriving DecidableEq

/-- The fixed tag the tool scans: the byte of ASCII `T` (0x54). -/
def tagT : Bytes := [84]

/-- `run` in `examples/txid_collisions.rs`: panic before opening anything
when the configured path does not exist; otherwise open the dataset with
`DBStore::open` (the bulk-import configuration) and run
`max_collision(b"T")`, returning success regardless of findings. -/
def runTool (pathExists : Bool) (disk : Disk) (dbPath : Bytes) : ToolOutcome :=
  if pathExists then
    ToolOutcome.ok (maxCollision (openDB dbPath disk).db tagT)
  else ToolOutcome.panicked

/-- The write-path operations a caller can issue against one handle. -/
inductive StoreOp where
  | put (key value : Bytes)
  | write (rows : List Row)
  | flush

/-- The engine-state effect of one operation. -/
def applyOp (db : DB) : StoreOp → DB
  | .put k v => dbPut k v db
  | .write rows => dbWrite rows db
  | .flush => dbWrite [] db

/-- Apply a whole operation sequence in order. -/
def applyOps (db : DB) (ops : List StoreOp) : DB := ops.foldl applyOp db

/-- The value of the most recent `set` of key `k` inside one batch, if any
(later rows of the batch override earlier ones). -/
def lastValueRows (k : Bytes) : List Row → Option Bytes
  | [] => none
  | r :: rows =>
    match lastValueRows k rows with
    | some v => some v
    | none => if r.key = k then some r.value else none

/-- The value of the most recently applied write of key `k` across an
operation sequence, if any. -/
def lastValue (k : Bytes) : List StoreOp → Option Bytes
  | [] => none
  | op :: ops =>
    match lastValue k ops with
    | some v => some v
    | none =>
      match op with
      | .put k' v => if k' = k then some v else none
      | .write rows => lastValueRows k rows
      | .flush => none

theorem dbGet_dbWrite (k : Bytes) : ∀ (rows : List Row) (db : DB),
    dbGet k (dbWrite rows db) = (lastValueRows k rows).or (dbGet k db) := by
  intro rows
  induction rows with
  | nil => intro db; rfl
  | cons r rows ih =>
    intro db
    show dbGet k (dbWrite rows (dbPut r.key r.value db)) = _
    rw [ih, dbGet_dbPut]
    cases hlv : lastValueRows k rows with
    | some v => simp [lastValueRows, hlv, Option.or]
    | none =>
      by_cases he : r.key = k
      · simp [lastValueRows, hlv, Option.or, he]
      · have he' : ¬k = r.key := fun e => he e.symm
        simp [lastValueRows, hlv, Option.or, he, he']

/-- Last-writer-wins across any operation sequence: a point lookup returns
the most recently written value for the key, falling back to the prior
state when the sequence never writes it. -/
theorem dbGet_applyOps (k : Bytes) : ∀ (ops : List StoreOp) (db : DB),
    dbGet k (applyOps db ops) = (lastValue k ops).or (dbGet k db) := by
  intro ops
  induction ops with
  | nil => intro db; rfl
  | cons op ops ih =>
    intro db
    show dbGet k (applyOps (applyOp db op) ops) = _
    rw [ih]
    cases hlv : lastValue k ops with
    | some v => simp [lastValue, hlv, Option.or]
    | none =>
      cases op with
      | put k' v =>
        show dbGet k (dbPut k' v db) = _
        rw [dbGet_dbPut]
        by_cases he : k' = k
        · simp [lastValue, hlv, Option.or, he]
        · have he' : ¬k = k' := fun e => he e.symm
          simp [lastValue, hlv, Option.or, he, he']
      | write rows =>
        show dbGet k (dbWrite rows db) = _
        rw [dbGet_dbWrite]
        simp [lastValue, hlv]
      | flush =>
        show dbGet k (dbWrite [] db) = _
        simp [lastValue, hlv, Option.or, dbWrite]

theorem ltBytes_append : ∀ t a b : Bytes, ltBytes (t ++ a) (t ++ b) = ltBytes a b := by
  intro t
  induction t with
  | nil => intro a b; rfl
  | cons x t ih => intro a b; simp [ltBytes, ih]

theorem length_le_of_startsWith {p k : Bytes} (h : startsWith p k = true) :
    p.length ≤ k.length := by
  have h1 := (startsWith_iff_lcp p k).mp h
  have h2 := lcpLen_le_left k p
  rw [lcpLen_comm k p, h1] at h2
  exact h2

theorem flushIter_preserves (s : DBStore) : ∀ n : Nat,
    (flushIter s n).db = s.db ∧ (flushIter s n).opts = s.opts := by
  intro n
  induction n with
  | zero => exact ⟨rfl, rfl⟩
  | succ n ih =>
    constructor
    · show dbWrite [] (flushIter s n).db = s.db
      exact ih.1
    · exact ih.2

/-- C3 (counterexample): the claim that `put` uses the same mode-dependent
durability options as `write` fails on a durable-mode handle: `write` uses
`sync = true`, while `put` goes through `rocksdb::DB::put` with the engine
default options (`sync = false`). -/
theorem put_durability_counterexample :
    ((DBStore.mk [] ⟨[], false⟩).putOp [1] [2]).2 ≠
      ((DBStore.mk [] ⟨[], false⟩).writeOp [⟨[1], [2]⟩]).2 := by
  decide

/-- C3 (amended): `put(key, value)` performs the single write outside the
batch path with the engine's default durability options — write-ahead log
enabled and no synchronous flush — regardless of the handle's mode, so it
does not honor the mode-dependent durability rule of `write`. -/
theorem put_uses_default_write_options (s : DBStore) (k v : Bytes) :
    (s.putOp k v).2 = defaultWriteOpts ∧
    (s.putOp k v).2.sync = false ∧
    (s.putOp k v).2.disableWal = false ∧
    (s.putOp k v).1.db = dbPut k v s.db ∧
    (s.putOp k v).1.opts = s.opts :=
  ⟨rfl, rfl, rfl, rfl, rfl⟩

/-- C4: `write(rows)` applies the batch with durability options determined
exactly by the handle's mode: bulk mode disables the write-ahead log and
forces no synchronous flush; durable mode keeps the log enabled and forces
a synchronous flush. -/
theorem write_durability_matches_mode (s : DBStore) (rows : List Row)
    (d : DB) (p : Bytes) :
    (s.writeOp rows).2.sync = !s.opts.bulkImport ∧
    (s.writeOp rows).2.disableWal = s.opts.bulkImport ∧
    ((DBStore.mk d ⟨p, true⟩).writeOp rows).2 = ⟨false, true⟩ ∧
    ((DBStore.mk d ⟨p, false⟩).writeOp rows).2 = ⟨true, false⟩ ∧
    (s.writeOp rows).1.db = dbWrite rows s.db ∧
    (s.writeOp rows).1.opts = s.opts :=
  ⟨rfl, rfl, rfl, rfl, rfl, rfl⟩

/-- C5: for every key written any number of times — inside one batch or
across a sequence of batches and puts — a subsequent `get` returns the
value of the most recently applied write of that key, and falls back to
the prior state only when the sequence never wrote the key. -/
theorem get_returns_most_recent_write (db : DB) (ops : List StoreOp) (k : Bytes) :
    dbGet k (applyOps db ops) = (lastValue k ops).or (dbGet k db) :=
  dbGet_applyOps k ops db

/-- C6: `enable_compaction` consumes the handle and yields a handle at the
same path whose configuration differs only in `bulk_import = false`, and
every row stored before the transition is still retrievable unchanged via
`get` and `scan` on the new handle. -/
theorem enable_compaction_preserves_data (s : DBStore) (disk : Disk) :
    (enableCompaction s disk).opts.path = s.opts.path ∧
    (enableCompaction s disk).opts.bulkImport = false ∧
    (enableCompaction s disk).opts = ⟨s.opts.path, false⟩ ∧
    (enableCompaction s disk).db = s.db ∧
    (∀ k, dbGet k (enableCompaction s disk).db = dbGet k s.db) ∧
    (∀ pre, dbScan pre (enableCompaction s disk).db = dbScan pre s.db) := by
  have hdb : (enableCompaction s disk).db = s.db := by
    show (if s.opts.path = s.opts.path then s.db else disk s.opts.path) = s.db
    exact if_pos rfl
  exact ⟨rfl, rfl, rfl, hdb, fun k => by rw [hdb], fun pre => by rw [hdb]⟩

/-- C7: `flush` writes an empty batch with a forced synchronous flush and
the write-ahead log enabled, and changes no stored data: any number of
repeated flushes leaves every subsequent `get` and `scan` result
unchanged. -/
theorem flush_changes_no_data (s : DBStore) (n : Nat) :
    (s.flushOp).2 = ⟨true, false⟩ ∧
    (s.flushOp).2.sync = true ∧
    (s.flushOp).1.db = s.db ∧
    (s.flushOp).1.opts = s.opts ∧
    (flushIter s n).db = s.db ∧
    (∀ k, dbGet k (flushIter s n).db = dbGet k s.db) ∧
    (∀ pre, dbScan pre (flushIter s n).db = dbScan pre s.db) := by
  have hdb := (flushIter_preserves s n).1
  exact ⟨rfl, rfl, rfl, rfl, hdb, fun k => by rw [hdb], fun pre => by rw [hdb]⟩

/-- C8: every engine failure surfacing at a storage-layer call site
(`open`, `get`, `put`, `write`, `flush` all `.unwrap()` the engine result)
propagates as a fatal outcome that terminates the owning process; in
particular `get` never converts an engine failure into an absent result.
(`scan` iterates through an engine cursor API that yields items with no
failure value, so it has no failure it could locally handle.) -/
theorem engine_failures_are_fatal (e : EngineError) :
    openOutcome (Except.error e) = Outcome.fatal e ∧
    getOutcome (Except.error e) = Outcome.fatal e ∧
    putOutcome (Except.error e) = Outcome.fatal e ∧
    writeOutcome (Except.error e) = Outcome.fatal e ∧
    flushOutcome (Except.error e) = Outcome.fatal e ∧
    (∀ o : Option Bytes, getOutcome (Except.error e) ≠ Outcome.ok o) :=
  ⟨rfl, rfl, rfl, rfl, rfl, fun _ h => Outcome.noConfusion h⟩

/-- C9: the diagnostic tool panics before opening any handle when the
configured dataset path does not exist (for every disk content alike); when
the path exists it opens the dataset with the bulk-mode configuration and
runs the collision scan with the fixed tag `"T"`, and an empty set of
findings is still a success, not an error. -/
theorem tool_aborts_without_db_and_reads_ok (disk : Disk) (dbPath : Bytes) :
    runTool false disk dbPath = ToolOutcome.panicked ∧
    runTool true disk dbPath = ToolOutcome.ok (maxCollision (disk dbPath) tagT) ∧
    (openDB dbPath disk).opts.bulkImport = true ∧
    (openDB dbPath disk).opts.path = dbPath ∧
    runTool true (fun _ => []) dbPath = ToolOutcome.ok ⟨none, 0, []⟩ :=
  ⟨rfl, rfl, rfl, rfl, rfl⟩

/-- C2: for every stored key set and every leading byte run `pre`,
`scan(pre)` returns exactly the stored rows whose key has `pre` as leading
byte sequence, in ascending byte-lexicographic key order and no others —
keys with a different leading run (including adjacent runs) and keys
shorter than `pre` are excluded. -/
theorem scan_returns_exactly_matching_rows (pre : Bytes) (db : DB)
    (hs : Sorted db) :
    dbScan pre db = db.filter (fun r => startsWith pre r.key) ∧
    Sorted (dbScan pre db) ∧
    (∀ r ∈ dbScan pre db,
      startsWith pre r.key = true ∧ pre.length ≤ r.key.length) ∧
    (∀ r ∈ db, startsWith pre r.key = true → r ∈ dbScan pre db) := by
  have hfil := dbScan_eq_filter pre db hs
  refine ⟨hfil, sorted_dbScan pre db hs, ?_, ?_⟩
  · intro r hr
    rw [hfil] at hr
    have hsw := List.of_mem_filter hr
    exact ⟨hsw, length_le_of_startsWith hsw⟩
  · intro r hr hsw
    rw [hfil]
    exact List.mem_filter.mpr ⟨hr, hsw⟩

/-- C2 (witness): a concrete three-row store with keys `T`, `TA`, `U`;
scanning `T` keeps exactly the first two rows and drops the adjacent
run `U`. -/
theorem scan_returns_exactly_matching_rows_witness :
    Sorted ([⟨[84], [1]⟩, ⟨[84, 65], [2]⟩, ⟨[85], [3]⟩] : DB) ∧
    dbScan [84] ([⟨[84], [1]⟩, ⟨[84, 65], [2]⟩, ⟨[85], [3]⟩] : DB) =
      ([⟨[84], [1]⟩, ⟨[84, 65], [2]⟩, ⟨[85], [3]⟩] : DB).filter
        (fun r => startsWith [84] r.key) :=
  ⟨by decide,
    (scan_returns_exactly_matching_rows [84]
      ([⟨[84], [1]⟩, ⟨[84, 65], [2]⟩, ⟨[85], [3]⟩] : DB) (by decide)).1⟩

/-- C10: during one `max_collision` pass the printed collision lengths are
strictly increasing; any dataset holding at least two keys sharing a
nonempty tag produces at least one report; and the first report can state
a post-tag collision length of zero, as on the two-key store with keys
`T1`, `T2`. -/
theorem collision_reports_increasing_and_emitted :
    (∀ (db : DB) (tag : Bytes),
      List.Pairwise (fun a b => a < b)
        ((maxCollision db tag).reports.map CollReport.len)) ∧
    (∀ (db : DB) (tag : Bytes), tag ≠ [] →
      2 ≤ (taggedKeys db tag).length → (maxCollision db tag).reports ≠ []) ∧
    (maxCollision ([⟨[84, 1], []⟩, ⟨[84, 2], []⟩] : DB) [84]).reports.map
      CollReport.len = [0] :=
  ⟨maxCollision_reports_increasing, maxCollision_reports_ne_nil, by decide⟩

/-- C10 (witness): a concrete two-key tagged store satisfies the
hypotheses, and the pass indeed emits a report. -/
theorem collision_reports_increasing_and_emitted_witness :
    (([84] : Bytes) ≠ [] ∧
      2 ≤ (taggedKeys ([⟨[84, 3], []⟩, ⟨[84, 5, 6], []⟩] : DB) [84]).length) ∧
    (maxCollision ([⟨[84, 3], []⟩, ⟨[84, 5, 6], []⟩] : DB) [84]).reports ≠ [] :=
  ⟨⟨by decide, by decide⟩,
    collision_reports_increasing_and_emitted.2.1
      ([⟨[84, 3], []⟩, ⟨[84, 5, 6], []⟩] : DB) [84] (by decide) (by decide)⟩

/-- C1: the running maximum computed by `max_collision(tag)` over
consecutive keys in sorted iteration order equals the true global maximum,
over ALL pairs of distinct stored keys starting with the tag, of the
post-tag common leading-byte run; in particular, for the key set
`{tag+"AAAA", tag+"AAAB", tag+"BBBB"}` the reported maximum post-tag
common-prefix length is 3 whatever the order in which the keys were
inserted. -/
theorem collision_scan_finds_global_max :
    (∀ (db : DB) (tag : Bytes), Sorted db → tag ≠ [] →
      2 ≤ (taggedKeys db tag).length →
      (maxCollision db tag).collisionMax - tag.length =
        listMax ((allPairs (taggedKeys db tag)).map
          (fun ab => lcpLen (ab.1.drop tag.length) (ab.2.drop tag.length)))) ∧
    (∀ (tag v1 v2 v3 : Bytes) (rows : List Row), tag ≠ [] →
      rows.Perm [⟨tag ++ [65, 65, 65, 65], v1⟩, ⟨tag ++ [65, 65, 65, 66], v2⟩,
        ⟨tag ++ [66, 66, 66, 66], v3⟩] →
      (maxCollision (dbWrite rows []) tag).collisionMax - tag.length = 3) := by
  constructor
  · intro db tag hs _ hlen
    exact maxCollision_global db tag hs hlen
  · intro tag v1 v2 v3 rows _ hperm
    have hsdb : Sorted (dbWrite rows []) :=
      sorted_dbWrite rows [] List.Pairwise.nil
    have hmemdb : ∀ x : Bytes, x ∈ keysOf (dbWrite rows []) ↔
        (x = tag ++ [65, 65, 65, 65] ∨ x = tag ++ [65, 65, 65, 66] ∨
          x = tag ++ [66, 66, 66, 66]) := by
      intro x
      rw [mem_keysOf_dbWrite]
      constructor
      · rintro (⟨r, hr, he⟩ | h)
        · have hr3 := hperm.mem_iff.mp hr
          subst he
          rcases List.mem_cons.mp hr3 with h | h
          · rw [h]; exact Or.inl rfl
          rcases List.mem_cons.mp h with h | h
          · rw [h]; exact Or.inr (Or.inl rfl)
          · rw [List.mem_singleton] at h; rw [h]; exact Or.inr (Or.inr rfl)
        · exact absurd h (List.not_mem_nil x)
      · rintro (h | h | h)
        · exact Or.inl ⟨⟨tag ++ [65, 65, 65, 65], v1⟩,
            hperm.mem_iff.mpr (List.mem_cons_self _ _), h.symm⟩
        · exact Or.inl ⟨⟨tag ++ [65, 65, 65, 66], v2⟩,
            hperm.mem_iff.mpr
              (List.mem_cons_of_mem _ (List.mem_cons_self _ _)), h.symm⟩
        · exact Or.inl ⟨⟨tag ++ [66, 66, 66, 66], v3⟩,
            hperm.mem_iff.mpr (List.mem_cons_of_mem _
              (List.mem_cons_of_mem _ (List.mem_cons_self _ _))), h.symm⟩
    have hkeys_pw : (keysOf (dbWrite rows [])).Pairwise
        (fun a b => ltBytes a b = true) :=
      List.pairwise_map.mpr hsdb
    have hltAB : ltBytes (tag ++ [65, 65, 65, 65]) (tag ++ [65, 65, 65, 66]) = true := by
      rw [ltBytes_append]; decide
    have hltAC : ltBytes (tag ++ [65, 65, 65, 65]) (tag ++ [66, 66, 66, 66]) = true := by
      rw [ltBytes_append]; decide
    have hltBC : ltBytes (tag ++ [65, 65, 65, 66]) (tag ++ [66, 66, 66, 66]) = true := by
      rw [ltBytes_append]; decide
    have hCpw : List.Pairwise (fun a b => ltBytes a b = true)
        [tag ++ [65, 65, 65, 65], tag ++ [65, 65, 65, 66],
          tag ++ [66, 66, 66, 66]] := by
      rw [List.pairwise_cons]
      refine ⟨?_, ?_⟩
      · intro b hb
        rcases List.mem_cons.mp hb with h | h
        · rw [h]; exact hltAB
        · rw [List.mem_singleton] at h; rw [h]; exact hltAC
      · rw [List.pairwise_cons]
        refine ⟨?_, List.pairwise_singleton _ _⟩
        intro b hb
        rw [List.mem_singleton] at hb; rw [hb]; exact hltBC
    have hkeysC : keysOf (dbWrite rows []) =
        [tag ++ [65, 65, 65, 65], tag ++ [65, 65, 65, 66],
          tag ++ [66, 66, 66, 66]] := by
      apply sorted_ext _ _ hkeys_pw hCpw
      intro x
      rw [hmemdb x]
      simp
    have hall : ∀ r ∈ dbWrite rows [],
        (fun r : Row => startsWith tag r.key) r = true := by
      intro r hr
      show startsWith tag r.key = true
      have hk : r.key ∈ keysOf (dbWrite rows []) := List.mem_map_of_mem Row.key hr
      rw [hkeysC] at hk
      rcases List.mem_cons.mp hk with h | h
      · rw [h]; exact startsWith_append_self tag _
      rcases List.mem_cons.mp h with h | h
      · rw [h]; exact startsWith_append_self tag _
      · rw [List.mem_singleton] at h; rw [h]; exact startsWith_append_self tag _
    have htagged : taggedKeys (dbWrite rows []) tag =
        [tag ++ [65, 65, 65, 65], tag ++ [65, 65, 65, 66],
          tag ++ [66, 66, 66, 66]] := by
      rw [taggedKeys_eq_scan, dbScan_eq_filter tag _ hsdb,
        List.filter_eq_self.mpr hall]
      exact hkeysC
    rw [maxCollision_eq_adj, htagged]
    have hadj : adjLcps [tag ++ [65, 65, 65, 65], tag ++ [65, 65, 65, 66],
        tag ++ [66, 66, 66, 66]] =
        [lcpLen (tag ++ [65, 65, 65, 65]) (tag ++ [65, 65, 65, 66]),
          lcpLen (tag ++ [65, 65, 65, 66]) (tag ++ [66, 66, 66, 66])] := rfl
    rw [hadj, lcpLen_append, lcpLen_append]
    have h3 : lcpLen [65, 65, 65, 65] [65, 65, 65, 66] = 3 := by decide
    have h0 : lcpLen [65, 65, 65, 66] [66, 66, 66, 66] = 0 := by decide
    rw [h3, h0, listMax_cons, listMax_cons]
    have hnil : listMax ([] : List Nat) = 0 := rfl
    rw [hnil]
    omega

/-- C1 (witness): the hypotheses hold on a concrete two-key store for the
general part, and on one concrete insertion order of the fixed key set for
the order-independence part. -/
theorem collision_scan_finds_global_max_witness :
    (Sorted ([⟨[84, 1, 1], []⟩, ⟨[84, 1, 2], []⟩] : DB) ∧
      ([84] : Bytes) ≠ [] ∧
      2 ≤ (taggedKeys ([⟨[84, 1, 1], []⟩, ⟨[84, 1, 2], []⟩] : DB) [84]).length) ∧
    (maxCollision ([⟨[84, 1, 1], []⟩, ⟨[84, 1, 2], []⟩] : DB) [84]).collisionMax -
        ([84] : Bytes).length =
      listMax ((allPairs
        (taggedKeys ([⟨[84, 1, 1], []⟩, ⟨[84, 1, 2], []⟩] : DB) [84])).map
        (fun ab => lcpLen (ab.1.drop ([84] : Bytes).length)
          (ab.2.drop ([84] : Bytes).length))) ∧
    (maxCollision (dbWrite [⟨[84] ++ [65, 65, 65, 65], []⟩,
        ⟨[84] ++ [65, 65, 65, 66], []⟩,
        ⟨[84] ++ [66, 66, 66, 66], []⟩] []) [84]).collisionMax -
      ([84] : Bytes).length = 3 :=
  ⟨⟨by decide, by decide, by decide⟩,
    collision_scan_finds_global_max.1 ([⟨[84, 1, 1], []⟩, ⟨[84, 1, 2], []⟩] : DB)
      [84] (by decide) (by decide) (by decide),
    collision_scan_finds_global_max.2 [84] [] [] []
      [⟨[84] ++ [65, 65, 65, 65], []⟩, ⟨[84] ++ [65, 65, 65, 66], []⟩,
        ⟨[84] ++ [66, 66, 66, 66], []⟩] (by decide) (List.Perm.refl _)⟩

end Electrs
